import Mathlib

/-!
Debugr: the response-to-action parser and the file writer.

A shallow embedding of `parseActions` (src/client/client.go) and of
`CreateOrModifyFile` / `ensureCorrectPackage` (src/utils/util.go).

Go strings are modelled as lists of Unicode code points (`List Char`), i.e. as
valid UTF-8 text.  Every separator and prefix the program uses is ASCII, so
splitting, prefix tests and whitespace trimming act on code points exactly as
they act on the UTF-8 bytes.  The one byte-indexed slice of the program (in the
first loop of `CreateOrModifyFile`) is modelled on the UTF-8 bytes.
-/

namespace Debugr

/-- A Go string, as its sequence of code points. -/
abbrev Str := List Char

/-! ## The parts of Go's `strings` and `unicode` packages the program calls -/

/-- Go `unicode.IsSpace`: the Latin-1 spaces and the code points with the
Unicode White_Space property. -/
def isSpace (c : Char) : Bool :=
  let n := c.toNat
  n == 0x09 || n == 0x0A || n == 0x0B || n == 0x0C || n == 0x0D || n == 0x20 ||
  n == 0x85 || n == 0xA0 || n == 0x1680 || (0x2000 ≤ n && n ≤ 0x200A) ||
  n == 0x2028 || n == 0x2029 || n == 0x202F || n == 0x205F || n == 0x3000

/-- Go `strings.TrimSpace`: all leading and trailing white space removed. -/
def TrimSpace (s : Str) : Str :=
  (s.dropWhile isSpace).rdropWhile isSpace

/-- Go `strings.Split(s, sep)` for a one-character separator: the pieces
between the separators; never the empty list. -/
def Split (sep : Char) : Str → List Str
  | [] => [[]]
  | c :: cs =>
    if c = sep then [] :: Split sep cs
    else
      match Split sep cs with
      | [] => [[c]]
      | l :: ls => (c :: l) :: ls

/-- Go `strings.SplitN(s, sep, n)` for a one-character separator and `n ≥ 0`:
at most `n` pieces, the last one being the unsplit remainder. -/
def SplitN (sep : Char) : Nat → Str → List Str
  | 0, _ => []
  | 1, s => [s]
  | n + 2, s =>
    if sep ∈ s then
      s.takeWhile (fun c => c != sep) :: SplitN sep (n + 1) ((s.dropWhile (fun c => c != sep)).tail)
    else [s]

/-- Go `strings.HasPrefix`. -/
def HasPrefix (s p : Str) : Bool := p.isPrefixOf s

/-- Go `strings.TrimPrefix`. -/
def TrimPrefix (s p : Str) : Str :=
  if HasPrefix s p then s.drop p.length else s

/-- Go `strings.Join(lines, sep)`. -/
def Join (lines : List Str) (sep : Str) : Str :=
  sep.intercalate lines

/-! ## String constants of the program -/

def createPrefix : Str := "CREATE_FILE:".toList
def modifyPrefix : Str := "MODIFY_FILE:".toList
def fencePrefix : Str := "```".toList
def dollarPrefix : Str := "$".toList
def goPrefix : Str := "go ".toList
def dollarSpace : Str := "$ ".toList
def CREATE_FILE : Str := "CREATE_FILE".toList
def MODIFY_FILE : Str := "MODIFY_FILE".toList
def COMMAND : Str := "COMMAND".toList
def EXPLANATION : Str := "EXPLANATION".toList

/-! ## `parseActions` (src/client/client.go) -/

/-- The `Action` struct; the field `Type` is spelled `Typ` here. -/
structure Action where
  Typ : Str
  Content : Str
  Path : Str
deriving DecidableEq, Repr

/-- The local variables of `parseActions` that live across loop iterations. -/
structure ParseState where
  actions : List Action
  currentAction : Action
  codeBlock : Str
  inCodeBlock : Bool
  inFileAction : Bool
deriving DecidableEq, Repr

/-- The state before the first line: no actions, the zero `Action`, an empty
builder, both flags false. -/
def initState : ParseState :=
  { actions := [], currentAction := ⟨[], [], []⟩, codeBlock := [],
    inCodeBlock := false, inFileAction := false }

/-- The three statements that emit the open file action:
`currentAction.Content = codeBlock.String()`, append, `codeBlock.Reset()`. -/
def flush (st : ParseState) : ParseState :=
  let cur : Action := { st.currentAction with Content := st.codeBlock }
  { st with currentAction := cur, actions := st.actions ++ [cur], codeBlock := [] }

/-- A line that takes the first branch of the loop body. -/
def isDirective (line : Str) : Bool :=
  HasPrefix line createPrefix || HasPrefix line modifyPrefix

/-- One iteration of the `for _, line := range lines` loop. -/
def parseLine (st : ParseState) (raw : Str) : ParseState :=
  let line := TrimSpace raw
  if line = [] then st
  else if isDirective line then
    let st1 := if st.inFileAction then flush st else st
    match SplitN ':' 3 line with
    | typ :: path :: _ =>
      { st1 with currentAction := ⟨typ, [], path⟩, inFileAction := true, inCodeBlock := false }
    | _ => st1
  else if HasPrefix line fencePrefix then
    let st1 := { st with inCodeBlock := !st.inCodeBlock }
    if !st1.inCodeBlock && st1.inFileAction then
      { flush st1 with inFileAction := false }
    else st1
  else if st.inCodeBlock || st.inFileAction then
    { st with codeBlock := st.codeBlock ++ (line ++ ['\n']) }
  else if HasPrefix line dollarPrefix || HasPrefix line goPrefix then
    { st with actions := st.actions ++ [⟨COMMAND, TrimPrefix line dollarSpace, []⟩] }
  else
    { st with actions := st.actions ++ [⟨EXPLANATION, line, []⟩] }

/-- The code after the loop: an open file action is emitted. -/
def finish (st : ParseState) : List Action :=
  if st.inFileAction then st.actions ++ [{ st.currentAction with Content := st.codeBlock }]
  else st.actions

/-- The loop of `parseActions` over a list of lines. -/
def parseLines (st : ParseState) (lines : List Str) : ParseState :=
  lines.foldl parseLine st

/-- Function `parseActions(text string) []Action`. -/
def parseActions (text : Str) : List Action :=
  finish (parseLines initState (Split '\n' (TrimSpace text)))


/-! ## `CreateOrModifyFile` and `ensureCorrectPackage` (src/utils/util.go) -/

/-- Go `strings.HasSuffix`. -/
def HasSuffix (s suffix : Str) : Bool := suffix.isSuffixOf s

/-- The scan of Go `filepath.Ext`, from the end of the path: `rev` is what is
left to scan, reversed, and `seen` what was scanned.  It stops at the first
separator or dot. -/
def extScan : Str → Str → Str
  | [], _ => []
  | c :: rev, seen =>
    if c = '/' then []
    else if c = '.' then '.' :: seen
    else extScan rev (c :: seen)

/-- Go `filepath.Ext` (Unix separator): the suffix of the last path element
that starts at its last dot, empty when there is none. -/
def Ext (path : Str) : Str :=
  extScan path.reverse []

/-- Go `filepath.Base` (Unix separator): the last element of the path, after
removing trailing slashes; `.` for the empty path, `/` for slashes only. -/
def Base (path : Str) : Str :=
  if path = [] then ['.']
  else
    let stripped := path.rdropWhile (fun c => c == '/')
    let last := (stripped.reverse.takeWhile (fun c => c != '/')).reverse
    if last = [] then ['/'] else last

/-- The UTF-8 encoding of one code point, as Go stores it in a string. -/
def utf8EncodeChar (c : Char) : List Nat :=
  let n := c.toNat
  if n < 0x80 then [n]
  else if n < 0x800 then [0xC0 + n / 64, 0x80 + n % 64]
  else if n < 0x10000 then [0xE0 + n / 4096, 0x80 + n / 64 % 64, 0x80 + n % 64]
  else [0xF0 + n / 262144, 0x80 + n / 4096 % 64, 0x80 + n / 64 % 64, 0x80 + n % 64]

/-- The bytes of a Go string. -/
def utf8Bytes (s : Str) : List Nat :=
  s.flatMap utf8EncodeChar

/-- One iteration of the first loop of `CreateOrModifyFile`: the bytes of the
new value of `lines[i]`.  `len` and the slice `line[:len(line)-len(trimmed)]`
count bytes, so the slice may end inside a code point. -/
def rebuiltLine (i : Nat) (line : Str) : List Nat :=
  let trimmed := TrimSpace line
  if trimmed ≠ [] then
    let indentation := (utf8Bytes line).take ((utf8Bytes line).length - (utf8Bytes trimmed).length)
    if i > 0 then indentation ++ utf8Bytes trimmed else utf8Bytes line
  else utf8Bytes line

/-- The local slice `lines` of `CreateOrModifyFile` after its first loop, each
element as bytes. -/
def rebuiltLines (content : Str) : List (List Nat) :=
  (Split '\n' content).enum.map (fun il => rebuiltLine il.1 il.2)

/-- The loop of `ensureCorrectPackage`: the first line whose trimmed form
starts with `pfx` becomes `pfx + " " + packageName`, then the loop breaks. -/
def ensureCorrectPackageLines (packageName pfx : Str) : List Str → List Str
  | [] => []
  | line :: rest =>
    if HasPrefix (TrimSpace line) pfx then (pfx ++ ' ' :: packageName) :: rest
    else line :: ensureCorrectPackageLines packageName pfx rest

/-- Function `ensureCorrectPackage(content, packageName, prefix string) string`. -/
def ensureCorrectPackage (content packageName pfx : Str) : Str :=
  Join (ensureCorrectPackageLines packageName pfx (Split '\n' content)) ['\n']

/-- The `switch ext` of `CreateOrModifyFile`: the marker handed to
`ensureCorrectPackage` when the path names a test file, `none` otherwise. -/
def testFileMarker (path : Str) : Option Str :=
  let ext := Ext path
  let filename := Base path
  if ext = ".go".toList then
    if HasSuffix filename "_test.go".toList then some "package".toList else none
  else if ext = ".py".toList then
    if HasPrefix filename "test_".toList then some "from . import".toList else none
  else if ext = ".js".toList then
    if HasPrefix filename "test_".toList || HasSuffix filename ".test.js".toList then
      some "const \x7b ".toList
    else none
  else none

/-- Function `CreateOrModifyFile(path, content string) error`, as the text it
hands to `os.WriteFile`: `none` when `os.MkdirAll` fails (`mkdirOk = false`) and
nothing is written.  `dirname` stands for `filepath.Base(filepath.Dir(path))`.
The slice `lines` is computed by the first loop and not read afterwards. -/
def CreateOrModifyFile (mkdirOk : Bool) (dirname path content : Str) : Option Str :=
  if !mkdirOk then none
  else
    let _lines := rebuiltLines content
    match testFileMarker path with
    | some pfx => some (ensureCorrectPackage content dirname pfx)
    | none => some content

/-! ## Vocabulary used to state the properties -/

/-- The input lines as the loop body sees them: split at newlines, each one
trimmed, blank ones dropped. -/
def trimmedLines (text : Str) : List Str :=
  ((Split '\n' text).map TrimSpace).filter (fun l => !l.isEmpty)

/-- A string with no leading and no trailing white space. -/
def NoOuterSpace (s : Str) : Prop :=
  (∀ c, s.head? = some c → isSpace c = false) ∧ (∀ c, s.getLast? = some c → isSpace c = false)

/-- The action the specification gives for a trimmed, non-blank line met
outside every capture state: `$ cmd` is the command `cmd`, any other line
starting with `$` or with `go ` is a command kept as it is, everything else is
an explanation.  The path is empty. -/
def spec_lineAction (line : Str) : Action :=
  match line with
  | '$' :: ' ' :: rest => ⟨COMMAND, rest, []⟩
  | '$' :: _ => ⟨COMMAND, line, []⟩
  | 'g' :: 'o' :: ' ' :: _ => ⟨COMMAND, line, []⟩
  | _ => ⟨EXPLANATION, line, []⟩

/-- A trimmed line that starts with neither directive prefix nor three backticks. -/
def NotMarked (line : Str) : Prop :=
  ¬ createPrefix <+: line ∧ ¬ modifyPrefix <+: line ∧ ¬ fencePrefix <+: line

/-- The text made of the given lines, each one ended by a newline. -/
def linesText (lines : List Str) : Str :=
  (lines.map (fun l => l ++ ['\n'])).flatten

/-- A plain body line: non-empty, no white space at either end, no newline
inside, and not starting with a directive prefix or three backticks. -/
def BodyLine (l : Str) : Prop :=
  l ≠ [] ∧ NoOuterSpace l ∧ '\n' ∉ l ∧ NotMarked l

/-- A directive line `K:p` (no inline part) or `K:p:rest`, and the plain body
lines that follow it. -/
structure FileBlock where
  keyword : Str
  path : Str
  inlineRest : Option Str
  body : List Str

/-- The directive line of a block. -/
def FileBlock.directive (b : FileBlock) : Str :=
  b.keyword ++ ':' :: b.path ++
    (match b.inlineRest with
     | none => []
     | some r => ':' :: r)

/-- The input lines of a block. -/
def FileBlock.lines (b : FileBlock) : List Str :=
  b.directive :: b.body

/-- The action a block stands for. -/
def FileBlock.action (b : FileBlock) : Action :=
  ⟨b.keyword, linesText b.body, b.path⟩

/-- The shape of a block: a file keyword, a non-empty path with neither colon
nor white space, an inline remainder within the line, plain body lines. -/
def FileBlock.WellFormed (b : FileBlock) : Prop :=
  (b.keyword = CREATE_FILE ∨ b.keyword = MODIFY_FILE) ∧ b.path ≠ [] ∧ ':' ∉ b.path ∧
  (∀ c ∈ b.path, isSpace c = false) ∧ (∀ r, b.inlineRest = some r → '\n' ∉ r) ∧
  ∀ l ∈ b.body, BodyLine l

/-- The text of a line before its first colon. -/
def spec_keyword (line : Str) : Str :=
  line.takeWhile (fun c => c != ':')

/-- The text of a line between its first colon and its second colon, or the
end of the line when there is no second colon. -/
def spec_pathSegment (line : Str) : Str :=
  ((line.dropWhile (fun c => c != ':')).tail).takeWhile (fun c => c != ':')

/-- A file action and the directive line that opened it: the line starts with
a directive prefix, and its keyword and path segment are the type and the path
of the action. -/
def OpenedBy (line : Str) (a : Action) : Prop :=
  (createPrefix <+: line ∨ modifyPrefix <+: line) ∧
  (a.Typ = CREATE_FILE ∨ a.Typ = MODIFY_FILE) ∧
  a.Typ = spec_keyword line ∧ a.Path = spec_pathSegment line

/-- The link between an output action and the trimmed input line it comes
from.  A command or an explanation comes from a non-blank line that is neither
a directive nor a fence, and is the action of that line; a file action comes
from the directive line that opened it. -/
def TriggeredBy (line : Str) (a : Action) : Prop :=
  (line ≠ [] ∧ NotMarked line ∧ a = spec_lineAction line) ∨ OpenedBy line a

/-- The loop invariant behind the ordering of the output: the emitted actions
come, in order, from a subsequence of the lines read so far, and the open file
action comes from a directive line after all of them. -/
def Traced (lines : List Str) (st : ParseState) : Prop :=
  ∃ ls, List.Forall₂ TriggeredBy ls st.actions ∧
    (st.inFileAction = false → List.Sublist ls lines) ∧
    (st.inFileAction = true → ∃ d, List.Sublist (ls ++ [d]) lines ∧ OpenedBy d st.currentAction)

/-- The content of a captured file body: a sequence of lines, each ended by a
newline, each non-empty, without a newline inside and without white space at
either end.  The empty content is the empty sequence. -/
def BodyText (content : Str) : Prop :=
  ∃ ls : List Str, content = linesText ls ∧ ∀ l ∈ ls, l ≠ [] ∧ '\n' ∉ l ∧ NoOuterSpace l

/-- The loop invariant behind the shape of file contents. -/
def BodyShaped (st : ParseState) : Prop :=
  BodyText st.codeBlock ∧
  ∀ a ∈ st.actions, (a.Typ = CREATE_FILE ∨ a.Typ = MODIFY_FILE) → BodyText a.Content

/-- A written line `lw` keeps the indentation of the content line `lc`: the
same leading white space and the same trimmed text. -/
def KeepsIndent (lw lc : Str) : Prop :=
  lw.takeWhile isSpace = lc.takeWhile isSpace ∧ TrimSpace lw = TrimSpace lc

/-- The lines of the text `w` are, one for one, the lines of `c` with their
indentation kept. -/
def LinesKeepIndent (w c : Str) : Prop :=
  List.Forall₂ KeepsIndent (Split '\n' w) (Split '\n' c)

/-! ## Facts about the string primitives -/

theorem Split_ne_nil (sep : Char) (s : Str) : Split sep s ≠ [] := by
  cases s with
  | nil => simp [Split]
  | cons c cs =>
    unfold Split
    split
    · simp
    · split <;> simp

theorem Split_cons_sep (sep : Char) (s : Str) : Split sep (sep :: s) = [] :: Split sep s := by
  simp [Split]

theorem Split_of_not_mem (sep : Char) (l : Str) (h : sep ∉ l) : Split sep l = [l] := by
  induction l with
  | nil => rfl
  | cons c cs ih =>
    have hc : c ≠ sep := fun e => h (by simp [e])
    have hcs : sep ∉ cs := fun e => h (by simp [e])
    simp [Split, hc, ih hcs]

theorem Split_append_sep (sep : Char) (l r : Str) (h : sep ∉ l) :
    Split sep (l ++ sep :: r) = l :: Split sep r := by
  induction l with
  | nil => simp [Split]
  | cons c cs ih =>
    have hc : c ≠ sep := fun e => h (by simp [e])
    have hcs : sep ∉ cs := fun e => h (by simp [e])
    simp [Split, hc, ih hcs]

theorem Split_concat_sep (sep : Char) (s : Str) : Split sep (s ++ [sep]) = Split sep s ++ [[]] := by
  induction s with
  | nil => simp [Split]
  | cons c cs ih =>
    by_cases hc : c = sep
    · simp [Split, hc, ← ih]
    · rcases hs : Split sep cs with _ | ⟨l, ls⟩
      · exact absurd hs (Split_ne_nil sep cs)
      · simp [Split, hc, ih, hs]

theorem Split_concat_ne (sep c : Char) (s : Str) (h : c ≠ sep) :
    ∃ init last, Split sep s = init ++ [last] ∧ Split sep (s ++ [c]) = init ++ [last ++ [c]] := by
  induction s with
  | nil => exact ⟨[], [], by simp [Split], by simp [Split, h]⟩
  | cons a as ih =>
    obtain ⟨init, last, h1, h2⟩ := ih
    by_cases ha : a = sep
    · exact ⟨[] :: init, last, by simp [Split, ha, h1], by simp [Split, ha, ← h2]⟩
    · cases init with
      | nil =>
        refine ⟨[], a :: last, ?_, ?_⟩
        · simp [Split, ha, h1]
        · simp [Split, ha, h2]
      | cons i is =>
        refine ⟨(a :: i) :: is, last, ?_, ?_⟩
        · simp [Split, ha, h1]
        · simp [Split, ha, h2]

theorem not_mem_of_mem_Split (sep : Char) (s l : Str) (h : l ∈ Split sep s) : sep ∉ l := by
  induction s generalizing l with
  | nil => simp [Split] at h; simp [h]
  | cons c cs ih =>
    by_cases hc : c = sep
    · simp only [Split, hc, if_true, List.mem_cons] at h
      rcases h with h | h
      · simp [h]
      · exact ih l h
    · rcases hs : Split sep cs with _ | ⟨l0, ls⟩
      · exact absurd hs (Split_ne_nil sep cs)
      · simp only [Split, hc, if_false, hs, List.mem_cons] at h
        rcases h with h | h
        · have := ih l0 (by simp [hs])
          subst h
          simp only [List.mem_cons, not_or]
          exact ⟨fun e => hc e.symm, this⟩
        · exact ih l (by simp [hs, h])

theorem TrimSpace_nil : TrimSpace [] = [] := by
  simp [TrimSpace]

theorem TrimSpace_cons_space (c : Char) (s : Str) (h : isSpace c = true) :
    TrimSpace (c :: s) = TrimSpace s := by
  simp [TrimSpace, h]

theorem TrimSpace_concat_space (c : Char) (s : Str) (h : isSpace c = true) :
    TrimSpace (s ++ [c]) = TrimSpace s := by
  unfold TrimSpace
  rw [List.dropWhile_append]
  by_cases he : (List.dropWhile isSpace s).isEmpty = true
  · have hnil : List.dropWhile isSpace s = [] := List.isEmpty_iff.1 he
    simp [hnil, h]
  · simp only [he, if_false, Bool.false_eq_true]
    exact List.rdropWhile_concat_pos _ _ _ h

theorem TrimSpace_dropWhile (s : Str) : TrimSpace (s.dropWhile isSpace) = TrimSpace s := by
  simp [TrimSpace, List.dropWhile_idempotent]

theorem TrimSpace_rdropWhile (s : Str) : TrimSpace (s.rdropWhile isSpace) = TrimSpace s := by
  induction s using List.reverseRecOn with
  | nil => simp
  | append_singleton l a ih =>
    by_cases ha : isSpace a = true
    · rw [List.rdropWhile_concat_pos _ _ _ ha, ih, TrimSpace_concat_space a l ha]
    · rw [List.rdropWhile_concat_neg _ _ _ ha]

theorem TrimSpace_idem (s : Str) : TrimSpace (TrimSpace s) = TrimSpace s := by
  show TrimSpace (List.rdropWhile isSpace (List.dropWhile isSpace s)) = _
  rw [TrimSpace_rdropWhile, TrimSpace_dropWhile]

theorem TrimSpace_eq_self (s : Str) (h : NoOuterSpace s) : TrimSpace s = s := by
  obtain ⟨h1, h2⟩ := h
  have hd : List.dropWhile isSpace s = s := by
    cases s with
    | nil => rfl
    | cons c r => exact List.dropWhile_cons_of_neg (by simp [h1 c rfl])
  unfold TrimSpace
  rw [hd, List.rdropWhile_eq_self_iff]
  intro hl
  simp [h2 _ (List.getLast?_eq_getLast s hl)]

theorem NoOuterSpace_TrimSpace (s : Str) : NoOuterSpace (TrimSpace s) := by
  constructor
  · intro c hc
    unfold TrimSpace at hc
    rcases hd : List.dropWhile isSpace s with _ | ⟨x, r⟩
    · simp [hd] at hc
    · have hx : isSpace x = false := by
        have := List.head?_dropWhile_not isSpace s
        simpa [hd] using this
      rw [hd] at hc
      have hne : List.rdropWhile isSpace (x :: r) ≠ [] := by
        intro e
        have := (List.rdropWhile_eq_nil_iff.1 e) x (by simp)
        simp [hx] at this
      obtain ⟨t, ht⟩ := List.rdropWhile_prefix (l := x :: r) (p := isSpace)
      rcases hr : List.rdropWhile isSpace (x :: r) with _ | ⟨y, r2⟩
      · exact absurd hr hne
      · rw [hr] at ht hc
        simp only [List.cons_append, List.cons.injEq] at ht
        simp only [List.head?_cons, Option.some.injEq] at hc
        rw [← hc, ht.1]
        exact hx
  · intro c hc
    unfold TrimSpace at hc
    by_cases hne : List.rdropWhile isSpace (List.dropWhile isSpace s) = []
    · simp [hne] at hc
    · have := List.rdropWhile_last_not (p := isSpace) (l := List.dropWhile isSpace s) hne
      rw [List.getLast?_eq_getLast _ hne] at hc
      simp only [Option.some.injEq] at hc
      rw [← hc]
      simpa using this

theorem TrimSpace_eq_self_iff (s : Str) : TrimSpace s = s ↔ NoOuterSpace s :=
  ⟨fun h => h ▸ NoOuterSpace_TrimSpace s, TrimSpace_eq_self s⟩

/-! ## The whole-text `TrimSpace` does not change the lines the loop acts on -/

theorem trimmedLines_cons_space (c : Char) (s : Str) (h : isSpace c = true) :
    trimmedLines (c :: s) = trimmedLines s := by
  unfold trimmedLines
  by_cases hc : c = '\n'
  · subst hc
    simp [Split, TrimSpace_nil]
  · rcases hs : Split '\n' s with _ | ⟨l, ls⟩
    · exact absurd hs (Split_ne_nil _ s)
    · simp [Split, hc, hs, TrimSpace_cons_space c l h]

theorem trimmedLines_concat_space (c : Char) (s : Str) (h : isSpace c = true) :
    trimmedLines (s ++ [c]) = trimmedLines s := by
  unfold trimmedLines
  by_cases hc : c = '\n'
  · subst hc
    simp [Split_concat_sep, TrimSpace_nil]
  · obtain ⟨init, last, h1, h2⟩ := Split_concat_ne '\n' c s hc
    simp [h1, h2, TrimSpace_concat_space c last h]

theorem trimmedLines_dropWhile (s : Str) :
    trimmedLines (s.dropWhile isSpace) = trimmedLines s := by
  induction s with
  | nil => rfl
  | cons c r ih =>
    by_cases hc : isSpace c = true
    · rw [List.dropWhile_cons_of_pos hc, ih, trimmedLines_cons_space c r hc]
    · rw [List.dropWhile_cons_of_neg hc]

theorem trimmedLines_rdropWhile (s : Str) :
    trimmedLines (s.rdropWhile isSpace) = trimmedLines s := by
  induction s using List.reverseRecOn with
  | nil => simp
  | append_singleton l a ih =>
    by_cases ha : isSpace a = true
    · rw [List.rdropWhile_concat_pos _ _ _ ha, ih, trimmedLines_concat_space a l ha]
    · rw [List.rdropWhile_concat_neg _ _ _ ha]

theorem trimmedLines_TrimSpace (text : Str) : trimmedLines (TrimSpace text) = trimmedLines text := by
  unfold TrimSpace
  rw [trimmedLines_rdropWhile, trimmedLines_dropWhile]

/-! ## The loop, seen on the trimmed non-blank lines -/

theorem parseLine_blank (st : ParseState) (raw : Str) (h : TrimSpace raw = []) :
    parseLine st raw = st := by
  simp [parseLine, h]

theorem parseLine_TrimSpace (st : ParseState) (raw : Str) :
    parseLine st (TrimSpace raw) = parseLine st raw := by
  simp only [parseLine, TrimSpace_idem]

theorem parseLines_trimmed (st : ParseState) (lines : List Str) :
    parseLines st ((lines.map TrimSpace).filter (fun l => !l.isEmpty)) = parseLines st lines := by
  induction lines generalizing st with
  | nil => rfl
  | cons l ls ih =>
    by_cases hl : TrimSpace l = []
    · simp only [List.map_cons, hl, List.isEmpty_nil, Bool.not_true, Bool.false_eq_true,
        not_false_eq_true, List.filter_cons_of_neg]
      rw [ih]
      simp [parseLines, parseLine_blank st l hl]
    · have : (!(TrimSpace l).isEmpty) = true := by
        cases h : TrimSpace l with
        | nil => exact absurd h hl
        | cons _ _ => rfl
      simp only [List.map_cons, List.filter_cons, this, if_true, parseLines, List.foldl_cons,
        parseLine_TrimSpace]
      exact ih _

theorem parseActions_eq (text : Str) :
    parseActions text = finish (parseLines initState (trimmedLines text)) := by
  unfold parseActions
  rw [← parseLines_trimmed, ← trimmedLines_TrimSpace text]
  rfl

theorem parseActions_eq_lines (text : Str) :
    parseActions text = finish (parseLines initState (Split '\n' text)) := by
  rw [parseActions_eq, trimmedLines, parseLines_trimmed]

/-! ## The string constants, spelled out -/

theorem createPrefix_eq :
    createPrefix = ['C', 'R', 'E', 'A', 'T', 'E', '_', 'F', 'I', 'L', 'E', ':'] := by decide

theorem modifyPrefix_eq :
    modifyPrefix = ['M', 'O', 'D', 'I', 'F', 'Y', '_', 'F', 'I', 'L', 'E', ':'] := by decide

theorem fencePrefix_eq : fencePrefix = ['\x60', '\x60', '\x60'] := by decide

theorem dollarPrefix_eq : dollarPrefix = ['$'] := by decide

theorem goPrefix_eq : goPrefix = ['g', 'o', ' '] := by decide

theorem dollarSpace_eq : dollarSpace = ['$', ' '] := by decide

theorem CREATE_FILE_eq :
    CREATE_FILE = ['C', 'R', 'E', 'A', 'T', 'E', '_', 'F', 'I', 'L', 'E'] := by decide

theorem MODIFY_FILE_eq :
    MODIFY_FILE = ['M', 'O', 'D', 'I', 'F', 'Y', '_', 'F', 'I', 'L', 'E'] := by decide

theorem COMMAND_eq : COMMAND = ['C', 'O', 'M', 'M', 'A', 'N', 'D'] := by decide

theorem EXPLANATION_eq :
    EXPLANATION = ['E', 'X', 'P', 'L', 'A', 'N', 'A', 'T', 'I', 'O', 'N'] := by decide

theorem HasPrefix_iff (s p : Str) : HasPrefix s p = true ↔ p <+: s := by
  simp [HasPrefix]

theorem HasPrefix_eq_false_iff (s p : Str) : HasPrefix s p = false ↔ ¬ p <+: s := by
  rw [← HasPrefix_iff]; simp

theorem isDirective_eq_false_iff (line : Str) :
    isDirective line = false ↔ ¬ createPrefix <+: line ∧ ¬ modifyPrefix <+: line := by
  simp only [isDirective, Bool.or_eq_false_iff, HasPrefix_eq_false_iff]

theorem NotMarked_iff (line : Str) :
    NotMarked line ↔ isDirective line = false ∧ HasPrefix line fencePrefix = false := by
  simp only [NotMarked, isDirective_eq_false_iff, HasPrefix_eq_false_iff, and_assoc]

/-! ## Lines outside every capture state -/

theorem lineAction_eq (line : Str) :
    (if HasPrefix line dollarPrefix || HasPrefix line goPrefix then
      (⟨COMMAND, TrimPrefix line dollarSpace, []⟩ : Action) else ⟨EXPLANATION, line, []⟩)
    = spec_lineAction line := by
  suffices hs : ∀ a, spec_lineAction line = a →
      (if HasPrefix line dollarPrefix || HasPrefix line goPrefix then
        (⟨COMMAND, TrimPrefix line dollarSpace, []⟩ : Action) else ⟨EXPLANATION, line, []⟩) = a from
    hs _ rfl
  intro a ha
  unfold spec_lineAction at ha
  split at ha
  · subst ha
    simp [HasPrefix, TrimPrefix, dollarPrefix_eq, dollarSpace_eq]
  · rename_i t h
    have : ¬ ([' '] <+: t) := by
      rintro ⟨r, hr⟩
      exact h r (by simpa using hr.symm)
    subst ha
    simp [HasPrefix, TrimPrefix, dollarPrefix_eq, dollarSpace_eq, this]
  · subst ha
    simp [HasPrefix, TrimPrefix, dollarPrefix_eq, dollarSpace_eq, goPrefix_eq]
  · rename_i h1 h2 h3
    have a1 : ¬ (['$'] <+: line) := by
      rintro ⟨r, hr⟩
      exact h2 r (by simpa using hr.symm)
    have a2 : ¬ (['g', 'o', ' '] <+: line) := by
      rintro ⟨r, hr⟩
      exact h3 r (by simpa using hr.symm)
    subst ha
    simp [HasPrefix, dollarPrefix_eq, goPrefix_eq, a1, a2]

theorem parseLine_idle (st : ParseState) (raw : Str) (hcb : st.inCodeBlock = false)
    (hfa : st.inFileAction = false) (hne : TrimSpace raw ≠ []) (hm : NotMarked (TrimSpace raw)) :
    parseLine st raw = { st with actions := st.actions ++ [spec_lineAction (TrimSpace raw)] } := by
  obtain ⟨hd, hf⟩ := (NotMarked_iff _).1 hm
  simp only [parseLine, hne, if_false, hd, hf, hcb, hfa, Bool.false_eq_true, Bool.or_self]
  rw [← lineAction_eq]
  split <;> rfl

theorem parseLines_idle (st : ParseState) (lines : List Str) (hcb : st.inCodeBlock = false)
    (hfa : st.inFileAction = false) (hm : ∀ raw ∈ lines, NotMarked (TrimSpace raw)) :
    parseLines st lines =
      { st with actions := st.actions ++
          ((lines.map TrimSpace).filter (fun l => !l.isEmpty)).map spec_lineAction } := by
  induction lines generalizing st with
  | nil => simp [parseLines]
  | cons l ls ih =>
    have hls : ∀ raw ∈ ls, NotMarked (TrimSpace raw) := fun r hr => hm r (by simp [hr])
    by_cases hl : TrimSpace l = []
    · simp only [parseLines, List.foldl_cons, parseLine_blank st l hl]
      have := ih st hcb hfa hls
      simp only [parseLines] at this
      rw [this]
      simp [hl]
    · have hstep := parseLine_idle st l hcb hfa hl (hm l (by simp))
      simp only [parseLines, List.foldl_cons, hstep]
      have := ih { st with actions := st.actions ++ [spec_lineAction (TrimSpace l)] } hcb hfa hls
      simp only [parseLines] at this
      rw [this]
      have hne : (!(TrimSpace l).isEmpty) = true := by
        cases h : TrimSpace l with
        | nil => exact absurd h hl
        | cons _ _ => rfl
      simp [List.filter_cons, hne]

theorem TrimSpace_all_space (text : Str) (h : ∀ c ∈ text, isSpace c = true) :
    TrimSpace text = [] := by
  unfold TrimSpace
  rw [List.dropWhile_eq_nil_iff.2 h]
  rfl

/-- C3: in a text none of whose trimmed lines starts with `CREATE_FILE:`,
`MODIFY_FILE:` or three backticks, `parseActions` returns one action per
non-blank line, in line order, with an empty path: a command (with a leading
dollar-space removed) for a line starting with `$` or `go `, an explanation
otherwise; a text made of white space only gives the empty sequence. -/
theorem parseActions_plain_text (text : Str)
    (h : ∀ raw ∈ Split '\n' text, NotMarked (TrimSpace raw)) :
    parseActions text = (trimmedLines text).map spec_lineAction ∧
    ((∀ c ∈ text, isSpace c = true) → parseActions text = []) := by
  constructor
  · rw [parseActions_eq_lines, parseLines_idle initState _ rfl rfl h]
    simp [finish, initState, trimmedLines]
  · intro hs
    simp [parseActions, TrimSpace_all_space text hs, Split, parseLines, parseLine, TrimSpace_nil,
      finish, initState]

/-- C3 at the three inputs of the specification and at a blank text. -/
theorem parseActions_plain_text_witness :
    (∀ raw ∈ Split '\n' "$ go test ./...\ngo build\n\n  Try restarting the server.\n".toList,
      NotMarked (TrimSpace raw)) ∧
    parseActions "$ go test ./...\ngo build\n\n  Try restarting the server.\n".toList =
      [⟨COMMAND, "go test ./...".toList, []⟩, ⟨COMMAND, "go build".toList, []⟩,
       ⟨EXPLANATION, "Try restarting the server.".toList, []⟩] := by
  have h : ∀ raw ∈ Split '\n' "$ go test ./...\ngo build\n\n  Try restarting the server.\n".toList,
      NotMarked (TrimSpace raw) := by
    simp only [NotMarked]
    decide
  refine ⟨h, ?_⟩
  rw [(parseActions_plain_text _ h).1]
  decide

/-! ## Texts given line by line -/

theorem Split_linesText (lines : List Str) (h : ∀ l ∈ lines, '\n' ∉ l) :
    Split '\n' (linesText lines) = lines ++ [[]] := by
  induction lines with
  | nil => rfl
  | cons l ls ih =>
    have h1 : '\n' ∉ l := h l (by simp)
    have h2 : ∀ x ∈ ls, '\n' ∉ x := fun x hx => h x (by simp [hx])
    have : linesText (l :: ls) = l ++ '\n' :: linesText ls := by simp [linesText]
    rw [this, Split_append_sep _ _ _ h1, ih h2]
    rfl

theorem Join_cons_cons (l l2 : Str) (ls : List Str) :
    Join (l :: l2 :: ls) ['\n'] = l ++ '\n' :: Join (l2 :: ls) ['\n'] := by
  simp [Join, List.intercalate, List.intersperse]

theorem Split_Join (lines : List Str) (hne : lines ≠ []) (h : ∀ l ∈ lines, '\n' ∉ l) :
    Split '\n' (Join lines ['\n']) = lines := by
  induction lines with
  | nil => exact absurd rfl hne
  | cons l ls ih =>
    have h1 : '\n' ∉ l := h l (by simp)
    cases ls with
    | nil =>
      have : Join [l] ['\n'] = l := by simp [Join, List.intercalate, List.intersperse]
      rw [this]
      exact Split_of_not_mem _ _ h1
    | cons l2 ls2 =>
      rw [Join_cons_cons, Split_append_sep _ _ _ h1,
        ih (by simp) (fun x hx => h x (List.mem_cons_of_mem _ hx))]

theorem parseLines_append (st : ParseState) (l1 l2 : List Str) :
    parseLines st (l1 ++ l2) = parseLines (parseLines st l1) l2 := by
  simp [parseLines, List.foldl_append]

theorem parseLines_cons (st : ParseState) (l : Str) (ls : List Str) :
    parseLines st (l :: ls) = parseLines (parseLine st l) ls := rfl

theorem parseLines_nil (st : ParseState) : parseLines st [] = st := rfl

/-- The parse of a text given as lines, with or without the final newline. -/
theorem parseActions_of_lines (lines : List Str) (text : Str) (hne : lines ≠ [])
    (h : ∀ l ∈ lines, '\n' ∉ l)
    (ht : text = linesText lines ∨ text = Join lines ['\n']) :
    parseActions text = finish (parseLines initState lines) := by
  rw [parseActions_eq_lines]
  rcases ht with ht | ht
  · rw [ht, Split_linesText lines h, parseLines_append, parseLines_cons,
      parseLine_blank _ _ TrimSpace_nil, parseLines_nil]
  · rw [ht, Split_Join lines hne h]

/-! ## Body lines and directive lines -/

theorem parseLine_body (st : ParseState) (b : Str) (hst : (st.inCodeBlock || st.inFileAction) = true)
    (hb : BodyLine b) :
    parseLine st b = { st with codeBlock := st.codeBlock ++ (b ++ ['\n']) } := by
  obtain ⟨hne, hno, _, hm⟩ := hb
  obtain ⟨hd, hf⟩ := (NotMarked_iff _).1 hm
  simp only [parseLine, TrimSpace_eq_self b hno, hne, if_false, hd, hf, hst, if_true,
    Bool.false_eq_true]

theorem parseLines_body (st : ParseState) (body : List Str)
    (hst : (st.inCodeBlock || st.inFileAction) = true) (hb : ∀ b ∈ body, BodyLine b) :
    parseLines st body = { st with codeBlock := st.codeBlock ++ linesText body } := by
  induction body generalizing st with
  | nil => simp [parseLines, linesText]
  | cons b bs ih =>
    rw [parseLines_cons, parseLine_body st b hst (hb b (by simp))]
    rw [ih { st with codeBlock := st.codeBlock ++ (b ++ ['\n']) } hst
      (fun x hx => hb x (by simp [hx]))]
    simp [linesText]

theorem takeWhile_ne_of_not_mem (sep : Char) (s : Str) (h : sep ∉ s) :
    s.takeWhile (fun c => c != sep) = s := by
  rw [List.takeWhile_eq_self_iff]
  intro c hc
  simp only [bne_iff_ne, ne_eq]
  rintro rfl
  exact h hc

theorem SplitN_three (line : Str) (h : ':' ∈ line) :
    ∃ rest, SplitN ':' 3 line = spec_keyword line :: spec_pathSegment line :: rest ∧
      rest.length ≤ 1 := by
  by_cases h2 : ':' ∈ (line.dropWhile (fun c => c != ':')).tail
  · exact ⟨[(((line.dropWhile (fun c => c != ':')).tail).dropWhile (fun c => c != ':')).tail],
      by simp [SplitN, h, h2, spec_keyword, spec_pathSegment], by simp⟩
  · exact ⟨[], by simp [SplitN, h, h2, spec_keyword, spec_pathSegment,
      takeWhile_ne_of_not_mem _ _ h2], by simp⟩

theorem directive_shape (line : Str) (h : isDirective line = true) :
    ':' ∈ line ∧
    ((createPrefix <+: line ∧ spec_keyword line = CREATE_FILE) ∨
     (modifyPrefix <+: line ∧ spec_keyword line = MODIFY_FILE)) := by
  simp only [isDirective, Bool.or_eq_true, HasPrefix_iff] at h
  rcases h with h | h
  · obtain ⟨t, rfl⟩ := h
    exact ⟨by simp [createPrefix_eq], Or.inl ⟨List.prefix_append _ _,
      by simp [spec_keyword, createPrefix_eq, CREATE_FILE_eq, List.takeWhile]⟩⟩
  · obtain ⟨t, rfl⟩ := h
    exact ⟨by simp [modifyPrefix_eq], Or.inr ⟨List.prefix_append _ _,
      by simp [spec_keyword, modifyPrefix_eq, MODIFY_FILE_eq, List.takeWhile]⟩⟩

/-- A directive line always opens a file action, after emitting the open one. -/
theorem parseLine_directive (st : ParseState) (raw : Str)
    (h : isDirective (TrimSpace raw) = true) :
    parseLine st raw =
      { (if st.inFileAction then flush st else st) with
        currentAction := ⟨spec_keyword (TrimSpace raw), [], spec_pathSegment (TrimSpace raw)⟩,
        inFileAction := true, inCodeBlock := false } := by
  have hc := (directive_shape _ h).1
  obtain ⟨rest, hs, _⟩ := SplitN_three _ hc
  have hne : TrimSpace raw ≠ [] := by
    intro e
    rw [e] at hc
    simp at hc
  simp only [parseLine, hne, if_false, h, if_true, hs]

theorem rdropWhile_append_of_last (x y : Str) (c : Char) (hx : x.getLast? = some c)
    (hl : isSpace c = false) :
    (x ++ y).rdropWhile isSpace = x ++ y.rdropWhile isSpace := by
  induction y using List.reverseRecOn with
  | nil =>
    simp only [List.append_nil, List.rdropWhile_nil]
    rw [List.rdropWhile_eq_self_iff]
    intro hne
    rw [List.getLast?_eq_getLast x hne] at hx
    simp only [Option.some.injEq] at hx
    simp [hx, hl]
  | append_singleton z a ih =>
    by_cases ha : isSpace a = true
    · rw [← List.append_assoc, List.rdropWhile_concat_pos _ _ _ ha, ih,
        List.rdropWhile_concat_pos _ _ _ ha]
    · rw [← List.append_assoc, List.rdropWhile_concat_neg _ _ _ ha,
        List.rdropWhile_concat_neg _ _ _ ha, List.append_assoc]

theorem keyword_facts (K : Str) (hK : K = CREATE_FILE ∨ K = MODIFY_FILE) :
    ':' ∉ K ∧ '\n' ∉ K ∧ (∀ c ∈ K, isSpace c = false) ∧
    ∀ t, isDirective (K ++ ':' :: t) = true ∧ (K ++ ':' :: t).dropWhile isSpace = K ++ ':' :: t := by
  rcases hK with rfl | rfl
  · refine ⟨by decide, by decide, by decide, fun t => ⟨?_, ?_⟩⟩
    · simp [isDirective, HasPrefix, createPrefix_eq, CREATE_FILE_eq]
    · simp only [CREATE_FILE_eq, List.cons_append]
      exact List.dropWhile_cons_of_neg (by decide)
  · refine ⟨by decide, by decide, by decide, fun t => ⟨?_, ?_⟩⟩
    · simp [isDirective, HasPrefix, modifyPrefix_eq, MODIFY_FILE_eq]
    · simp only [List.cons_append, MODIFY_FILE_eq]
      exact List.dropWhile_cons_of_neg (by decide)

/-- The directive line `K:p` followed by nothing or by `:rest`, once trimmed:
only white space at the end of `rest` can go. -/
theorem TrimSpace_directive (K p tail : Str) (hK : K = CREATE_FILE ∨ K = MODIFY_FILE)
    (hp : ∀ c ∈ p, isSpace c = false) (ht : tail = [] ∨ ∃ r, tail = ':' :: r) :
    ∃ tail2, TrimSpace (K ++ ':' :: p ++ tail) = K ++ ':' :: p ++ tail2 ∧
      (tail2 = [] ∨ ∃ r, tail2 = ':' :: r) := by
  obtain ⟨_, _, _, hk⟩ := keyword_facts K hK
  have hl : ∃ c, (K ++ ':' :: p).getLast? = some c ∧ isSpace c = false := by
    rcases List.eq_nil_or_concat p with rfl | ⟨q, c, rfl⟩
    · exact ⟨':', by simp, by decide⟩
    · refine ⟨c, ?_, hp c (by simp)⟩
      rw [List.concat_eq_append, show K ++ ':' :: (q ++ [c]) = (K ++ ':' :: q) ++ [c] by simp]
      exact List.getLast?_concat _
  obtain ⟨cl, hx, hl⟩ := hl
  refine ⟨tail.rdropWhile isSpace, ?_, ?_⟩
  · unfold TrimSpace
    have e : K ++ ':' :: p ++ tail = K ++ ':' :: (p ++ tail) := by simp
    rw [e, (hk (p ++ tail)).2, ← e, rdropWhile_append_of_last _ _ cl hx hl]
  · rcases ht with rfl | ⟨r, rfl⟩
    · left; simp
    · right
      refine ⟨r.rdropWhile isSpace, ?_⟩
      exact rdropWhile_append_of_last [':'] r ':' (by simp) (by decide)

theorem pathSegment_directive (K p tail : Str) (hK : ':' ∉ K) (hp : ':' ∉ p)
    (ht : tail = [] ∨ ∃ r, tail = ':' :: r) :
    spec_keyword (K ++ ':' :: p ++ tail) = K ∧ spec_pathSegment (K ++ ':' :: p ++ tail) = p := by
  have hKall : ∀ c ∈ K, (fun c => c != ':') c = true := by
    intro c hc
    simp only [bne_iff_ne, ne_eq]
    rintro rfl
    exact hK hc
  have hpall : ∀ c ∈ p, (fun c => c != ':') c = true := by
    intro c hc
    simp only [bne_iff_ne, ne_eq]
    rintro rfl
    exact hp hc
  have e : K ++ ':' :: p ++ tail = K ++ (':' :: (p ++ tail)) := by simp
  constructor
  · rw [spec_keyword, e, List.takeWhile_append_of_pos hKall]
    simp
  · rw [spec_pathSegment, e, List.dropWhile_append_of_pos hKall]
    simp only [bne_self_eq_false, Bool.false_eq_true, not_false_eq_true,
      List.dropWhile_cons_of_neg, List.tail_cons]
    rw [List.takeWhile_append_of_pos hpall]
    rcases ht with rfl | ⟨r, rfl⟩ <;> simp

/-- The step taken at a directive line `K:p` or `K:p:rest`. -/
theorem parseLine_directive_line (st : ParseState) (K p tail : Str)
    (hK : K = CREATE_FILE ∨ K = MODIFY_FILE) (hc : ':' ∉ p)
    (hp : ∀ c ∈ p, isSpace c = false) (ht : tail = [] ∨ ∃ r, tail = ':' :: r) :
    parseLine st (K ++ ':' :: p ++ tail) =
      { (if st.inFileAction then flush st else st) with
        currentAction := ⟨K, [], p⟩, inFileAction := true, inCodeBlock := false } := by
  obtain ⟨tail2, h1, h2⟩ := TrimSpace_directive K p tail hK hp ht
  obtain ⟨hKc, _, _, hk⟩ := keyword_facts K hK
  have hd : isDirective (TrimSpace (K ++ ':' :: p ++ tail)) = true := by
    rw [h1]
    have e : K ++ ':' :: p ++ tail2 = K ++ ':' :: (p ++ tail2) := by simp
    rw [e]
    exact (hk _).1
  rw [parseLine_directive st _ hd, h1]
  obtain ⟨e1, e2⟩ := pathSegment_directive K p tail2 hKc hc h2
  rw [e1, e2]

/-- The step taken at a line made of three backticks. -/
theorem parseLine_fence_line (st : ParseState) :
    parseLine st fencePrefix =
      if st.inCodeBlock && st.inFileAction then
        { flush { st with inCodeBlock := false } with inFileAction := false }
      else { st with inCodeBlock := !st.inCodeBlock } := by
  have h1 : TrimSpace fencePrefix = fencePrefix := by decide
  have h2 : isDirective fencePrefix = false := by decide
  have h3 : HasPrefix fencePrefix fencePrefix = true := by decide
  have h4 : fencePrefix ≠ [] := by decide
  simp only [parseLine, h1, h2, h3, h4, if_false, if_true, Bool.false_eq_true, Bool.not_not]
  cases st.inCodeBlock <;> cases st.inFileAction <;> rfl

theorem BodyLine_no_newline (b : Str) (h : BodyLine b) : '\n' ∉ b := h.2.2.1

theorem BodyLine_of_checks (b : Str) (h1 : b ≠ []) (h2 : TrimSpace b = b) (h3 : '\n' ∉ b)
    (h4 : isDirective b = false ∧ HasPrefix b fencePrefix = false) : BodyLine b :=
  ⟨h1, (TrimSpace_eq_self_iff b).1 h2, h3, (NotMarked_iff b).2 h4⟩

/-- C1: a directive line `K:p:` followed by a fenced block of plain body lines
parses to exactly one action of type `K` with path `p` whose content is the
body lines, each followed by a newline (empty for an empty body); the text may
or may not end with a newline. -/
theorem parseActions_fenced_file (K p : Str) (body : List Str) (text : Str)
    (hK : K = CREATE_FILE ∨ K = MODIFY_FILE)
    (hp : ':' ∉ p ∧ '\n' ∉ p ∧ ∀ c ∈ p, isSpace c = false)
    (hb : ∀ b ∈ body, BodyLine b)
    (ht : text = linesText ((K ++ ':' :: p ++ [':']) :: fencePrefix :: (body ++ [fencePrefix])) ∨
          text = Join ((K ++ ':' :: p ++ [':']) :: fencePrefix :: (body ++ [fencePrefix])) ['\n']) :
    parseActions text = [⟨K, linesText body, p⟩] := by
  obtain ⟨hpc, hpn, hps⟩ := hp
  obtain ⟨_, hKn, _, _⟩ := keyword_facts K hK
  have hnl : ∀ l ∈ (K ++ ':' :: p ++ [':']) :: fencePrefix :: (body ++ [fencePrefix]), '\n' ∉ l := by
    intro l hl
    simp only [List.mem_cons, List.mem_append, List.mem_singleton, List.not_mem_nil, or_false] at hl
    rcases hl with rfl | rfl | hl | rfl
    · simp only [List.mem_append, List.mem_cons, List.mem_singleton, List.not_mem_nil, or_false,
        not_or]
      exact ⟨⟨hKn, by decide, hpn⟩, by decide⟩
    · decide
    · exact BodyLine_no_newline l (hb l hl)
    · decide
  rw [parseActions_of_lines _ text (by simp) hnl ht, parseLines_cons,
    parseLine_directive_line initState K p [':'] hK hpc hps (Or.inr ⟨[], rfl⟩),
    parseLines_cons, parseLine_fence_line, parseLines_append, parseLines_body _ body ?_ hb,
    parseLines_cons, parseLine_fence_line, parseLines_nil]
  · simp [initState, finish, flush]
  · simp [initState]

/-- C1 at the input of the specification. -/
theorem parseActions_fenced_file_witness :
    parseActions "CREATE_FILE:a.go:\n\x60\x60\x60\npackage main\n\x60\x60\x60\n".toList =
      [⟨CREATE_FILE, "package main\n".toList, "a.go".toList⟩] :=
  parseActions_fenced_file CREATE_FILE "a.go".toList ["package main".toList] _ (Or.inl rfl)
    ⟨by decide, by decide, by decide⟩
    (by
      intro b hb
      simp only [List.mem_singleton] at hb
      subst hb
      exact BodyLine_of_checks _ (by decide) (by decide) (by decide) (by decide))
    (Or.inl (by decide))

/-! ## Directives with unfenced bodies -/

theorem FileBlock.directive_tail (b : FileBlock) :
    ∃ tail, b.directive = b.keyword ++ ':' :: b.path ++ tail ∧ (tail = [] ∨ ∃ r, tail = ':' :: r) := by
  unfold FileBlock.directive
  cases b.inlineRest with
  | none => exact ⟨[], by simp, Or.inl rfl⟩
  | some r => exact ⟨':' :: r, by simp, Or.inr ⟨r, rfl⟩⟩

theorem parseLines_block (st : ParseState) (b : FileBlock) (hw : b.WellFormed)
    (hbuf : st.inFileAction = false → st.codeBlock = []) :
    parseLines st b.lines =
      { actions := finish st, currentAction := ⟨b.keyword, [], b.path⟩,
        codeBlock := linesText b.body, inCodeBlock := false, inFileAction := true } := by
  obtain ⟨hK, _, hc, hs, _, hbody⟩ := hw
  obtain ⟨tail, ht, htail⟩ := b.directive_tail
  rw [FileBlock.lines, parseLines_cons, ht,
    parseLine_directive_line st b.keyword b.path tail hK hc hs htail,
    parseLines_body _ b.body ?_ hbody]
  · cases hfa : st.inFileAction with
    | false => simp [finish, hfa, hbuf hfa]
    | true => simp [finish, hfa, flush]
  · simp

theorem finish_parseLines_blocks (blocks : List FileBlock) (st : ParseState)
    (hw : ∀ b ∈ blocks, b.WellFormed)
    (hbuf : st.inFileAction = false → st.codeBlock = []) :
    finish (parseLines st (blocks.flatMap FileBlock.lines)) =
      finish st ++ blocks.map FileBlock.action := by
  induction blocks generalizing st with
  | nil => simp [parseLines]
  | cons b bs ih =>
    rw [List.flatMap_cons, parseLines_append, parseLines_block st b (hw b (by simp)) hbuf,
      ih _ (fun x hx => hw x (by simp [hx])) (by simp)]
    simp [finish, FileBlock.action]

theorem FileBlock.lines_no_newline (b : FileBlock) (hw : b.WellFormed) :
    ∀ l ∈ b.lines, '\n' ∉ l := by
  obtain ⟨hK, _, _, hs, hr, hbody⟩ := hw
  obtain ⟨_, hKn, _, _⟩ := keyword_facts b.keyword hK
  have hpn : '\n' ∉ b.path := fun h => by
    have := hs _ h
    revert this
    decide
  intro l hl
  simp only [FileBlock.lines, List.mem_cons] at hl
  rcases hl with rfl | hl
  · unfold FileBlock.directive
    cases hi : b.inlineRest with
    | none =>
      simp only [List.append_nil, List.mem_append, List.mem_cons, not_or]
      exact ⟨hKn, by decide, hpn⟩
    | some r =>
      simp only [List.mem_append, List.mem_cons, not_or]
      exact ⟨⟨hKn, by decide, hpn⟩, by decide, hr r hi⟩
  · exact BodyLine_no_newline l (hbody l hl)

/-- C2: a text without fences made of `k ≥ 1` directive lines `K:p` or
`K:p:rest`, each followed by plain body lines, parses to exactly the `k`
actions of the blocks, in order: type `K`, path `p`, content the block's own
body lines each followed by a newline.  The inline remainder is dropped, a
directive emits the file action open before it, the last one is emitted at the
end of the input; the text may or may not end with a newline. -/
theorem parseActions_unfenced_blocks (blocks : List FileBlock) (text : Str)
    (hne : blocks ≠ []) (hw : ∀ b ∈ blocks, b.WellFormed)
    (ht : text = linesText (blocks.flatMap FileBlock.lines) ∨
          text = Join (blocks.flatMap FileBlock.lines) ['\n']) :
    parseActions text = blocks.map FileBlock.action := by
  have hlines : blocks.flatMap FileBlock.lines ≠ [] := by
    cases blocks with
    | nil => exact absurd rfl hne
    | cons b bs => simp [List.flatMap_cons, FileBlock.lines]
  have hnl : ∀ l ∈ blocks.flatMap FileBlock.lines, '\n' ∉ l := by
    intro l hl
    obtain ⟨b, hb, hlb⟩ := List.mem_flatMap.1 hl
    exact b.lines_no_newline (hw b hb) l hlb
  rw [parseActions_of_lines _ text hlines hnl ht,
    finish_parseLines_blocks blocks initState hw (fun _ => rfl)]
  simp [finish, initState]

/-- C2 at the inputs of the specification: one unfenced `MODIFY_FILE` with two
body lines, and two consecutive `CREATE_FILE` directives. -/
theorem parseActions_unfenced_blocks_witness :
    parseActions "MODIFY_FILE:x.py\nprint(1)\nprint(2)\n".toList =
      [⟨MODIFY_FILE, "print(1)\nprint(2)\n".toList, "x.py".toList⟩] ∧
    parseActions "CREATE_FILE:a.go: dropped\nCREATE_FILE:b.go".toList =
      [⟨CREATE_FILE, [], "a.go".toList⟩, ⟨CREATE_FILE, [], "b.go".toList⟩] :=
  ⟨parseActions_unfenced_blocks
      [⟨MODIFY_FILE, "x.py".toList, none, ["print(1)".toList, "print(2)".toList]⟩] _ (by simp)
      (by
        intro b hb
        simp only [List.mem_singleton] at hb
        subst hb
        refine ⟨by decide, by decide, by decide, by decide, by simp, ?_⟩
        intro l hl
        simp only [List.mem_cons, List.mem_singleton, List.not_mem_nil, or_false] at hl
        rcases hl with rfl | rfl <;>
          exact BodyLine_of_checks _ (by decide) (by decide) (by decide) (by decide))
      (Or.inl (by decide)),
   parseActions_unfenced_blocks
      [⟨CREATE_FILE, "a.go".toList, some " dropped".toList, []⟩,
       ⟨CREATE_FILE, "b.go".toList, none, []⟩] _ (by simp)
      (by
        intro b hb
        simp only [List.mem_cons, List.mem_singleton, List.not_mem_nil, or_false] at hb
        rcases hb with rfl | rfl
        · refine ⟨by decide, by decide, by decide, by decide, ?_, by simp⟩
          intro r hr
          simp only [Option.some.injEq] at hr
          subst hr
          decide
        · exact ⟨by decide, by decide, by decide, by decide, by simp, by simp⟩)
      (Or.inr (by decide))⟩

/-! ## The five ways a line is handled -/

theorem parseLine_cases (st : ParseState) (raw : Str) :
    (TrimSpace raw = [] ∧ parseLine st raw = st) ∨
    (TrimSpace raw ≠ [] ∧ isDirective (TrimSpace raw) = true ∧
      parseLine st raw =
        { (if st.inFileAction then flush st else st) with
          currentAction := ⟨spec_keyword (TrimSpace raw), [], spec_pathSegment (TrimSpace raw)⟩,
          inFileAction := true, inCodeBlock := false }) ∨
    (TrimSpace raw ≠ [] ∧ isDirective (TrimSpace raw) = false ∧
      HasPrefix (TrimSpace raw) fencePrefix = true ∧
      parseLine st raw =
        if st.inCodeBlock && st.inFileAction then
          { flush { st with inCodeBlock := false } with inFileAction := false }
        else { st with inCodeBlock := !st.inCodeBlock }) ∨
    (TrimSpace raw ≠ [] ∧ NotMarked (TrimSpace raw) ∧
      (st.inCodeBlock || st.inFileAction) = true ∧
      parseLine st raw = { st with codeBlock := st.codeBlock ++ (TrimSpace raw ++ ['\n']) }) ∨
    (TrimSpace raw ≠ [] ∧ NotMarked (TrimSpace raw) ∧
      st.inCodeBlock = false ∧ st.inFileAction = false ∧
      parseLine st raw = { st with actions := st.actions ++ [spec_lineAction (TrimSpace raw)] }) := by
  by_cases hne : TrimSpace raw = []
  · exact Or.inl ⟨hne, parseLine_blank st raw hne⟩
  · by_cases hd : isDirective (TrimSpace raw) = true
    · exact Or.inr (Or.inl ⟨hne, hd, parseLine_directive st raw hd⟩)
    · have hd2 : isDirective (TrimSpace raw) = false := by simpa using hd
      by_cases hf : HasPrefix (TrimSpace raw) fencePrefix = true
      · refine Or.inr (Or.inr (Or.inl ⟨hne, hd2, hf, ?_⟩))
        simp only [parseLine, hne, if_false, hd2, hf, if_true, Bool.false_eq_true, Bool.not_not]
        cases st.inCodeBlock <;> cases st.inFileAction <;> rfl
      · have hf2 : HasPrefix (TrimSpace raw) fencePrefix = false := by simpa using hf
        have hm : NotMarked (TrimSpace raw) := (NotMarked_iff _).2 ⟨hd2, hf2⟩
        by_cases hst : (st.inCodeBlock || st.inFileAction) = true
        · refine Or.inr (Or.inr (Or.inr (Or.inl ⟨hne, hm, hst, ?_⟩)))
          simp only [parseLine, hne, if_false, hd2, hf2, hst, if_true, Bool.false_eq_true]
        · simp only [Bool.or_eq_true, not_or, Bool.not_eq_true] at hst
          exact Or.inr (Or.inr (Or.inr (Or.inr
            ⟨hne, hm, hst.1, hst.2, parseLine_idle st raw hst.1 hst.2 hne hm⟩)))

/-- An invariant of the loop body that holds at the start holds after the loop. -/
theorem parseLines_invariant (P : List Str → ParseState → Prop) (st : ParseState)
    (lines : List Str) (pre : List Str) (h0 : P pre st)
    (hstep : ∀ done st raw, raw ∈ lines → P done st → P (done ++ [raw]) (parseLine st raw)) :
    P (pre ++ lines) (parseLines st lines) := by
  induction lines generalizing st pre with
  | nil => simpa [parseLines] using h0
  | cons l ls ih =>
    have := ih (parseLine st l) (pre ++ [l]) (hstep pre st l (by simp) h0)
      (fun done st raw hr h => hstep done st raw (by simp [hr]) h)
    simpa [parseLines] using this

/-! ## Every action comes from a line, in order -/

theorem OpenedBy_content (d : Str) (a : Action) (c : Str) (h : OpenedBy d a) :
    OpenedBy d { a with Content := c } := h

theorem OpenedBy_directive (line : Str) (h : isDirective line = true) (c : Str) :
    OpenedBy line ⟨spec_keyword line, c, spec_pathSegment line⟩ := by
  obtain ⟨_, hs⟩ := directive_shape line h
  rcases hs with ⟨hp, hk⟩ | ⟨hp, hk⟩
  · exact ⟨Or.inl hp, Or.inl hk, rfl, rfl⟩
  · exact ⟨Or.inr hp, Or.inr hk, rfl, rfl⟩

theorem Traced_mono (L M : List Str) (st : ParseState) (h : Traced L st) : Traced (L ++ M) st := by
  obtain ⟨ls, hF, hidle, hopen⟩ := h
  refine ⟨ls, hF, fun hf => (hidle hf).trans (List.sublist_append_left L M), fun hf => ?_⟩
  obtain ⟨d, hs, hd⟩ := hopen hf
  exact ⟨d, hs.trans (List.sublist_append_left L M), hd⟩

theorem Forall₂_concat {R : Str → Action → Prop} {ls : List Str} {as : List Action}
    (h : List.Forall₂ R ls as) {l : Str} {a : Action} (hla : R l a) :
    List.Forall₂ R (ls ++ [l]) (as ++ [a]) :=
  List.rel_append h (List.Forall₂.cons hla List.Forall₂.nil)

theorem Traced_step (L : List Str) (st : ParseState) (raw : Str) (h : Traced L st) :
    Traced (L ++ [TrimSpace raw]) (parseLine st raw) := by
  rcases parseLine_cases st raw with ⟨_, hr⟩ | ⟨hne, hd, hr⟩ | ⟨hne, _, _, hr⟩ | ⟨hne, hm, _, hr⟩ |
    ⟨hne, hm, _, hfa, hr⟩
  · rw [hr]; exact Traced_mono _ _ _ h
  · rw [hr]
    obtain ⟨ls, hF, hidle, hopen⟩ := h
    cases hfa : st.inFileAction with
    | false =>
      refine ⟨ls, by simpa [hfa] using hF, by simp, fun _ => ⟨TrimSpace raw, ?_, ?_⟩⟩
      · exact List.Sublist.append (hidle hfa) (List.Sublist.refl _)
      · exact OpenedBy_directive _ hd _
    | true =>
      obtain ⟨d, hs, hd0⟩ := hopen hfa
      refine ⟨ls ++ [d], ?_, by simp, fun _ => ⟨TrimSpace raw, ?_, ?_⟩⟩
      · simp only [if_true, flush]
        exact Forall₂_concat hF (Or.inr (OpenedBy_content d _ _ hd0))
      · exact List.Sublist.append hs (List.Sublist.refl _)
      · exact OpenedBy_directive _ hd _
  · rw [hr]
    by_cases hc : (st.inCodeBlock && st.inFileAction) = true
    · simp only [hc, if_true]
      obtain ⟨ls, hF, _, hopen⟩ := h
      have hfa : st.inFileAction = true := by
        simp only [Bool.and_eq_true] at hc
        exact hc.2
      obtain ⟨d, hs, hd0⟩ := hopen hfa
      refine ⟨ls ++ [d], ?_, fun _ => hs.trans (List.sublist_append_left _ _), by simp⟩
      simp only [flush]
      exact Forall₂_concat hF (Or.inr (OpenedBy_content d _ _ hd0))
    · simp only [hc, if_false]
      exact Traced_mono _ _ _ h
  · rw [hr]; exact Traced_mono _ _ _ h
  · rw [hr]
    obtain ⟨ls, hF, hidle, _⟩ := h
    refine ⟨ls ++ [TrimSpace raw], ?_, fun _ => ?_, by simp [hfa]⟩
    · exact Forall₂_concat hF (Or.inl ⟨hne, hm, rfl⟩)
    · exact List.Sublist.append (hidle hfa) (List.Sublist.refl _)

theorem Traced_parseLines (lines : List Str) :
    Traced (lines.map TrimSpace) (parseLines initState lines) := by
  have := parseLines_invariant (fun done st => Traced (done.map TrimSpace) st) initState lines []
    ⟨[], List.Forall₂.nil, fun _ => List.Sublist.refl _, by simp [initState]⟩
    (fun done st raw _ h => by simpa using Traced_step _ st raw h)
  simpa using this

/-- The actions of a text come, in order, from a subsequence of its trimmed lines. -/
theorem parseActions_traced (text : Str) :
    ∃ ls, List.Sublist ls ((Split '\n' text).map TrimSpace) ∧
      List.Forall₂ TriggeredBy ls (parseActions text) := by
  rw [parseActions_eq_lines]
  obtain ⟨ls, hF, hidle, hopen⟩ := Traced_parseLines (Split '\n' text)
  cases hfa : (parseLines initState (Split '\n' text)).inFileAction with
  | false => exact ⟨ls, hidle hfa, by simpa [finish, hfa] using hF⟩
  | true =>
    obtain ⟨d, hs, hd0⟩ := hopen hfa
    refine ⟨ls ++ [d], hs, ?_⟩
    simp only [finish, hfa, if_true]
    exact Forall₂_concat hF (Or.inr (OpenedBy_content d _ _ hd0))

theorem OpenedBy_ne_nil (line : Str) (a : Action) (h : OpenedBy line a) : line ≠ [] := by
  rintro rfl
  rcases h.1 with h | h
  · revert h; simp [createPrefix_eq]
  · revert h; simp [modifyPrefix_eq]

theorem TriggeredBy_ne_nil (line : Str) (a : Action) (h : TriggeredBy line a) : line ≠ [] := by
  rcases h with ⟨h, _⟩ | h
  · exact h
  · exact OpenedBy_ne_nil line a h

theorem OpenedBy_isDirective (line : Str) (a : Action) (h : OpenedBy line a) :
    isDirective line = true := by
  simp only [isDirective, Bool.or_eq_true, HasPrefix_iff]
  exact h.1

theorem spec_lineAction_Typ (line : Str) :
    ((spec_lineAction line).Typ = COMMAND ∨ (spec_lineAction line).Typ = EXPLANATION) ∧
    (spec_lineAction line).Path = [] := by
  unfold spec_lineAction
  split <;> simp

theorem not_file_of_lineAction (line : Str) :
    ¬ ((spec_lineAction line).Typ = CREATE_FILE ∨ (spec_lineAction line).Typ = MODIFY_FILE) := by
  rcases (spec_lineAction_Typ line).1 with h | h <;> rw [h] <;> decide

/-- C5: the actions appear in the order of the lines that triggered them.  There
is a strictly increasing map from output positions to indices of non-blank
input lines that sends each command or explanation to the line it is the
action of, and each file action to the directive line that opened it, whose
keyword and path segment are the action's type and path. -/
theorem parseActions_order (text : Str) :
    ∃ f : ℕ → ℕ, StrictMono f ∧
      ∀ (i : ℕ) (hi : i < (parseActions text).length),
        ∃ raw, (Split '\n' text)[f i]? = some raw ∧ TrimSpace raw ≠ [] ∧
          TriggeredBy (TrimSpace raw) ((parseActions text)[i]) := by
  obtain ⟨ls, hs, hF⟩ := parseActions_traced text
  obtain ⟨f, hf⟩ := List.sublist_iff_exists_orderEmbedding_get?_eq.1 hs
  refine ⟨f, f.strictMono, fun i hi => ?_⟩
  obtain ⟨hlen, hget⟩ := List.forall₂_iff_get.1 hF
  have hi2 : i < ls.length := hlen ▸ hi
  have h1 := hf i
  rw [List.get?_eq_getElem?, List.get?_eq_getElem?, List.getElem?_map,
    List.getElem?_eq_getElem hi2] at h1
  have ht := hget i hi2 hi
  simp only [List.get_eq_getElem] at ht
  cases hraw : (Split '\n' text)[f i]? with
  | none => rw [hraw] at h1; simp at h1
  | some raw =>
    rw [hraw] at h1
    simp only [Option.map_some', Option.some.injEq] at h1
    rw [h1] at ht
    exact ⟨raw, rfl, TriggeredBy_ne_nil _ _ ht, ht⟩

theorem file_action_source (text : Str) (a : Action) (ha : a ∈ parseActions text) :
    (∃ raw ∈ Split '\n' text, TrimSpace raw ≠ [] ∧ NotMarked (TrimSpace raw) ∧
      a = spec_lineAction (TrimSpace raw)) ∨
    (∃ raw ∈ Split '\n' text, OpenedBy (TrimSpace raw) a) := by
  obtain ⟨ls, hs, hF⟩ := parseActions_traced text
  obtain ⟨hlen, hget⟩ := List.forall₂_iff_get.1 hF
  obtain ⟨i, hi, rfl⟩ := List.getElem_of_mem ha
  have hi2 : i < ls.length := hlen ▸ hi
  have ht := hget i hi2 hi
  simp only [List.get_eq_getElem] at ht
  have hmem : ls[i] ∈ (Split '\n' text).map TrimSpace := hs.subset (List.getElem_mem hi2)
  obtain ⟨raw, hraw, he⟩ := List.mem_map.1 hmem
  rw [← he] at ht
  rcases ht with ⟨h1, h2, h3⟩ | h
  · exact Or.inl ⟨raw, hraw, h1, h2, h3⟩
  · exact Or.inr ⟨raw, hraw, h⟩

/-! ## Paths of file actions -/

/-- C4 (counterexample): the one-line text `CREATE_FILE:` yields a file action
whose path is empty. -/
theorem file_action_empty_path :
    parseActions "CREATE_FILE:".toList = [⟨CREATE_FILE, [], []⟩] ∧
    ¬ ∀ a ∈ parseActions "CREATE_FILE:".toList,
        (a.Typ = CREATE_FILE ∨ a.Typ = MODIFY_FILE) → a.Path ≠ [] := by
  decide

/-- C4 (amended): when every directive line of the input has a non-empty text
between its first colon and its second colon (or the end of the line), every
file action returned by `parseActions` has a non-empty path. -/
theorem file_action_path_nonempty (text : Str)
    (h : ∀ raw ∈ Split '\n' text,
      (createPrefix <+: TrimSpace raw ∨ modifyPrefix <+: TrimSpace raw) →
        spec_pathSegment (TrimSpace raw) ≠ []) :
    ∀ a ∈ parseActions text, (a.Typ = CREATE_FILE ∨ a.Typ = MODIFY_FILE) → a.Path ≠ [] := by
  intro a ha hty
  rcases file_action_source text a ha with ⟨raw, _, _, _, he⟩ | ⟨raw, hraw, ho⟩
  · rw [he] at hty
    exact absurd hty (not_file_of_lineAction _)
  · rw [ho.2.2.2]
    exact h raw hraw ho.1

/-- C4 (amended) at a text with a fenced `CREATE_FILE` and an unfenced
`MODIFY_FILE` with an empty body. -/
theorem file_action_path_nonempty_witness :
    parseActions "CREATE_FILE:a.go:\n\x60\x60\x60\nx\n\x60\x60\x60\nMODIFY_FILE:b".toList =
      [⟨CREATE_FILE, "x\n".toList, "a.go".toList⟩, ⟨MODIFY_FILE, [], "b".toList⟩] ∧
    ∀ a ∈ parseActions "CREATE_FILE:a.go:\n\x60\x60\x60\nx\n\x60\x60\x60\nMODIFY_FILE:b".toList,
      (a.Typ = CREATE_FILE ∨ a.Typ = MODIFY_FILE) → a.Path ≠ [] :=
  ⟨by decide, file_action_path_nonempty _ (by decide)⟩

/-! ## Directive lines -/

/-- C10: a trimmed line that starts with `CREATE_FILE:` or `MODIFY_FILE:` splits
at colons into at least two (and at most three) parts, the first being the
keyword itself, so the guard on the number of parts always passes: the line
opens a file action, with inside-file-action true and inside-fenced-block
false.  Every action of the output is a command or an explanation without a
path, or a file action of type `CREATE_FILE` or `MODIFY_FILE` whose path is the
text between the first and the second colon (or the end) of a directive line
of the input. -/
theorem directive_always_opens (st : ParseState) (raw text : Str) :
    ((createPrefix <+: TrimSpace raw ∨ modifyPrefix <+: TrimSpace raw) →
      (∃ rest, SplitN ':' 3 (TrimSpace raw) =
          spec_keyword (TrimSpace raw) :: spec_pathSegment (TrimSpace raw) :: rest ∧
          rest.length ≤ 1) ∧
      ((createPrefix <+: TrimSpace raw ∧ spec_keyword (TrimSpace raw) = CREATE_FILE) ∨
       (modifyPrefix <+: TrimSpace raw ∧ spec_keyword (TrimSpace raw) = MODIFY_FILE)) ∧
      (parseLine st raw).inFileAction = true ∧ (parseLine st raw).inCodeBlock = false ∧
      (parseLine st raw).currentAction =
        ⟨spec_keyword (TrimSpace raw), [], spec_pathSegment (TrimSpace raw)⟩) ∧
    (∀ a ∈ parseActions text,
      ((a.Typ = COMMAND ∨ a.Typ = EXPLANATION) ∧ a.Path = []) ∨
      ((a.Typ = CREATE_FILE ∨ a.Typ = MODIFY_FILE) ∧
        ∃ line ∈ Split '\n' text,
          (createPrefix <+: TrimSpace line ∨ modifyPrefix <+: TrimSpace line) ∧
          a.Typ = spec_keyword (TrimSpace line) ∧ a.Path = spec_pathSegment (TrimSpace line))) := by
  constructor
  · intro hp
    have hd : isDirective (TrimSpace raw) = true := by
      simp only [isDirective, Bool.or_eq_true, HasPrefix_iff]
      exact hp
    obtain ⟨hc, hk⟩ := directive_shape _ hd
    refine ⟨SplitN_three _ hc, hk, ?_⟩
    rw [parseLine_directive st raw hd]
    exact ⟨rfl, rfl, rfl⟩
  · intro a ha
    rcases file_action_source text a ha with ⟨line, _, _, _, he⟩ | ⟨line, hline, ho⟩
    · left
      rw [he]
      exact spec_lineAction_Typ _
    · right
      exact ⟨ho.2.1, line, hline, ho.1, ho.2.2.1, ho.2.2.2⟩

/-- C10 at the line `  MODIFY_FILE:src/x.py:print(1):2` met in the initial
state, and at a text with that directive. -/
theorem directive_always_opens_witness :
    (parseLine initState "  MODIFY_FILE:src/x.py:print(1):2".toList).inFileAction = true ∧
    (parseLine initState "  MODIFY_FILE:src/x.py:print(1):2".toList).currentAction =
      ⟨MODIFY_FILE, [], "src/x.py".toList⟩ ∧
    SplitN ':' 3 "MODIFY_FILE:src/x.py:print(1):2".toList =
      [ MODIFY_FILE, "src/x.py".toList, "print(1):2".toList] := by
  have h := (directive_always_opens initState "  MODIFY_FILE:src/x.py:print(1):2".toList []).1
    (by decide)
  exact ⟨h.2.2.1, by decide, by decide⟩

/-! ## The shape of file contents -/

theorem BodyText_nil : BodyText [] := ⟨[], rfl, by simp⟩

theorem linesText_concat (ls : List Str) (l : Str) :
    linesText (ls ++ [l]) = linesText ls ++ (l ++ ['\n']) := by
  simp [linesText]

theorem TrimSpace_sublist (s : Str) : List.Sublist (TrimSpace s) s :=
  (List.rdropWhile_prefix isSpace _).sublist.trans (List.dropWhile_sublist isSpace)

theorem BodyText_append_line (content raw : Str) (h : BodyText content)
    (hne : TrimSpace raw ≠ []) (hnl : '\n' ∉ raw) :
    BodyText (content ++ (TrimSpace raw ++ ['\n'])) := by
  obtain ⟨ls, rfl, hls⟩ := h
  refine ⟨ls ++ [TrimSpace raw], (linesText_concat ls _).symm, ?_⟩
  intro l hl
  simp only [List.mem_append, List.mem_singleton] at hl
  rcases hl with hl | rfl
  · exact hls l hl
  · exact ⟨hne, fun hm => hnl ((TrimSpace_sublist raw).subset hm), NoOuterSpace_TrimSpace raw⟩

theorem BodyShaped_flush (st : ParseState) (h : BodyShaped st) : BodyShaped (flush st) := by
  obtain ⟨hb, ha⟩ := h
  refine ⟨BodyText_nil, ?_⟩
  intro a hmem hty
  simp only [flush, List.mem_append, List.mem_singleton] at hmem
  rcases hmem with hmem | rfl
  · exact ha a hmem hty
  · exact hb

theorem BodyShaped_step (st : ParseState) (raw : Str) (hnl : '\n' ∉ raw) (h : BodyShaped st) :
    BodyShaped (parseLine st raw) := by
  rcases parseLine_cases st raw with ⟨_, hr⟩ | ⟨_, _, hr⟩ | ⟨_, _, _, hr⟩ | ⟨hne, _, _, hr⟩ |
    ⟨_, _, _, _, hr⟩
  · rw [hr]; exact h
  · rw [hr]
    cases st.inFileAction with
    | false => exact h
    | true => exact BodyShaped_flush st h
  · rw [hr]
    split
    · exact BodyShaped_flush { st with inCodeBlock := false } h
    · exact h
  · rw [hr]
    exact ⟨BodyText_append_line _ raw h.1 hne hnl, h.2⟩
  · rw [hr]
    refine ⟨h.1, ?_⟩
    intro a hmem hty
    simp only [List.mem_append, List.mem_singleton] at hmem
    rcases hmem with hmem | rfl
    · exact h.2 a hmem hty
    · exact absurd hty (not_file_of_lineAction _)

/-- C9: the content of every file action returned by `parseActions` is empty or
a sequence of lines each ended by a newline, every line non-empty and without
white space at either end: indentation and blank lines of a body are never
kept. -/
theorem file_content_shape (text : Str) :
    ∀ a ∈ parseActions text, (a.Typ = CREATE_FILE ∨ a.Typ = MODIFY_FILE) →
      ∃ ls : List Str, a.Content = linesText ls ∧
        ∀ l ∈ ls, l ≠ [] ∧ '\n' ∉ l ∧ NoOuterSpace l := by
  have hinv : BodyShaped (parseLines initState (Split '\n' text)) := by
    have := parseLines_invariant (fun _ st => BodyShaped st) initState (Split '\n' text) []
      ⟨BodyText_nil, by simp [initState]⟩
      (fun _ st raw hr h => BodyShaped_step st raw (not_mem_of_mem_Split _ _ _ hr) h)
    simpa using this
  intro a ha hty
  rw [parseActions_eq_lines] at ha
  unfold finish at ha
  split at ha
  · simp only [List.mem_append, List.mem_singleton] at ha
    rcases ha with ha | rfl
    · exact hinv.2 a ha hty
    · exact hinv.1
  · exact hinv.2 a ha hty

/-- C9 at a text with an indented body and a blank line inside a fence. -/
theorem file_content_shape_witness :
    parseActions "CREATE_FILE:a.py\n\x60\x60\x60\ndef f():\n\n    return 1\n\x60\x60\x60".toList =
      [⟨CREATE_FILE, "def f():\nreturn 1\n".toList, "a.py".toList⟩] ∧
    ∃ ls : List Str, "def f():\nreturn 1\n".toList = linesText ls ∧
      ∀ l ∈ ls, l ≠ [] ∧ '\n' ∉ l ∧ NoOuterSpace l := by
  have h : parseActions
      "CREATE_FILE:a.py\n\x60\x60\x60\ndef f():\n\n    return 1\n\x60\x60\x60".toList =
      [⟨CREATE_FILE, "def f():\nreturn 1\n".toList, "a.py".toList⟩] := by decide
  exact ⟨h, file_content_shape _ ⟨CREATE_FILE, "def f():\nreturn 1\n".toList, "a.py".toList⟩
    (by rw [h]; simp) (Or.inl rfl)⟩

/-! ## Fence lines -/

theorem not_directive_of_fence (line : Str) (h : fencePrefix <+: line) :
    isDirective line = false ∧ line ≠ [] := by
  obtain ⟨t, rfl⟩ := h
  constructor
  · simp [isDirective, HasPrefix, fencePrefix_eq, createPrefix_eq, modifyPrefix_eq,
      List.isPrefixOf]
  · simp [fencePrefix_eq]

/-- C6 (counterexample): the line made of three backticks followed by `go`, met
in the initial state, toggles the flag and emits nothing; it is not turned into
an explanation. -/
theorem fence_with_tag_toggles :
    (parseLine initState "\x60\x60\x60go".toList).inCodeBlock = true ∧
    (parseLine initState "\x60\x60\x60go".toList).actions = [] ∧
    parseActions "\x60\x60\x60go".toList ≠ [⟨EXPLANATION, "\x60\x60\x60go".toList, []⟩] := by
  decide

/-- C6 (amended): a line is handled as a fence marker exactly when its trimmed
form starts with three backticks, whatever follows them.  Such a line negates
the inside-fenced-block flag, and met outside a fenced block and outside a file
action it only sets the flag, emitting no action; a line that starts with
neither three backticks nor a directive prefix leaves the flag as it is. -/
theorem fence_marker_leading_backticks (st : ParseState) (raw : Str) :
    (fencePrefix <+: TrimSpace raw →
      (parseLine st raw).inCodeBlock = (!st.inCodeBlock) ∧
      (st.inCodeBlock = false → st.inFileAction = false →
        parseLine st raw = { st with inCodeBlock := true })) ∧
    (¬ fencePrefix <+: TrimSpace raw → ¬ createPrefix <+: TrimSpace raw →
      ¬ modifyPrefix <+: TrimSpace raw → (parseLine st raw).inCodeBlock = st.inCodeBlock) := by
  constructor
  · intro hf
    obtain ⟨hd, hne⟩ := not_directive_of_fence _ hf
    have hf2 : HasPrefix (TrimSpace raw) fencePrefix = true := (HasPrefix_iff _ _).2 hf
    rcases parseLine_cases st raw with ⟨h, _⟩ | ⟨_, h, _⟩ | ⟨_, _, _, hr⟩ | ⟨_, hm, _⟩ | ⟨_, hm, _⟩
    · exact absurd h hne
    · rw [hd] at h; exact absurd h (by simp)
    · rw [hr]
      constructor
      · cases st.inCodeBlock <;> cases st.inFileAction <;> rfl
      · intro h1 h2
        simp [h1, h2]
    · exact absurd hf hm.2.2
    · exact absurd hf hm.2.2
  · intro hf hc hm
    rcases parseLine_cases st raw with ⟨_, hr⟩ | ⟨_, h, _⟩ | ⟨_, _, h, _⟩ | ⟨_, _, _, hr⟩ |
      ⟨_, _, _, _, hr⟩
    · rw [hr]
    · rw [(isDirective_eq_false_iff _).2 ⟨hc, hm⟩] at h
      exact absurd h (by simp)
    · exact absurd ((HasPrefix_iff _ _).1 h) hf
    · rw [hr]
    · rw [hr]

/-- C6 (amended) at a fence line with a language tag met in the initial state. -/
theorem fence_marker_leading_backticks_witness :
    parseLine initState "  \x60\x60\x60python".toList = { initState with inCodeBlock := true } :=
  ((fence_marker_leading_backticks initState "  \x60\x60\x60python".toList).1 (by decide)).2 rfl rfl

/-! ## Text left in the buffer by a fenced block outside a file action -/

/-- C8 (the code at the failing input): a fenced block closed before the
directive leaves its interior in the buffer, and the later file action gets it
in front of its own body. -/
theorem stale_fence_text_in_file_content :
    parseActions "\x60\x60\x60\nfoo\n\x60\x60\x60\nCREATE_FILE:a.go\nbar\n".toList =
      [⟨CREATE_FILE, "foo\nbar\n".toList, "a.go".toList⟩] := by
  decide

/-! ## What `CreateOrModifyFile` writes -/

theorem Join_Split (s : Str) : Join (Split '\n' s) ['\n'] = s := by
  induction s with
  | nil => rfl
  | cons c cs ih =>
    by_cases hc : c = '\n'
    · subst hc
      rcases hs : Split '\n' cs with _ | ⟨l, ls⟩
      · exact absurd hs (Split_ne_nil _ cs)
      · rw [Split_cons_sep, hs, Join_cons_cons, ← hs, ih]
        rfl
    · rcases hs : Split '\n' cs with _ | ⟨l, ls⟩
      · exact absurd hs (Split_ne_nil _ cs)
      · have e : Split '\n' (c :: cs) = (c :: l) :: ls := by simp [Split, hc, hs]
        rw [e]
        rw [hs] at ih
        rw [← ih]
        cases ls with
        | nil => simp [Join, List.intercalate, List.intersperse]
        | cons l2 ls2 => rw [Join_cons_cons, Join_cons_cons]; rfl

theorem Forall₂_KeepsIndent_refl (ls : List Str) : List.Forall₂ KeepsIndent ls ls := by
  induction ls with
  | nil => exact List.Forall₂.nil
  | cons l ls ih => exact List.Forall₂.cons ⟨rfl, rfl⟩ ih

theorem LinesKeepIndent_refl (c : Str) : LinesKeepIndent c c :=
  Forall₂_KeepsIndent_refl _

theorem ensureCorrectPackageLines_no_marker (dirname pfx : Str) (ls : List Str)
    (h : ∀ l ∈ ls, ¬ pfx <+: TrimSpace l) :
    ensureCorrectPackageLines dirname pfx ls = ls := by
  induction ls with
  | nil => rfl
  | cons l ls ih =>
    have hl : HasPrefix (TrimSpace l) pfx = false :=
      (HasPrefix_eq_false_iff _ _).2 (h l (by simp))
    simp only [ensureCorrectPackageLines, hl, Bool.false_eq_true, if_false]
    rw [ih (fun x hx => h x (by simp [hx]))]

theorem ensureCorrectPackageLines_first (dirname pfx : Str) (pre : List Str) (l : Str)
    (post : List Str) (hpre : ∀ x ∈ pre, ¬ pfx <+: TrimSpace x) (hl : pfx <+: TrimSpace l) :
    ensureCorrectPackageLines dirname pfx (pre ++ l :: post) =
      pre ++ (pfx ++ ' ' :: dirname) :: post := by
  induction pre with
  | nil =>
    have : HasPrefix (TrimSpace l) pfx = true := (HasPrefix_iff _ _).2 hl
    simp [ensureCorrectPackageLines, this]
  | cons x xs ih =>
    have hx : HasPrefix (TrimSpace x) pfx = false :=
      (HasPrefix_eq_false_iff _ _).2 (hpre x (by simp))
    have e := ih (fun y hy => hpre y (by simp [hy]))
    simp only [List.cons_append, ensureCorrectPackageLines, hx, Bool.false_eq_true, if_false]
    exact congrArg (List.cons x) e

theorem testFileMarker_no_newline (path pfx : Str) (h : testFileMarker path = some pfx) :
    '\n' ∉ pfx := by
  unfold testFileMarker at h
  simp only at h
  split at h
  · split at h
    · simp only [Option.some.injEq] at h; subst h; decide
    · simp at h
  · split at h
    · split at h
      · simp only [Option.some.injEq] at h; subst h; decide
      · simp at h
    · split at h
      · split at h
        · simp only [Option.some.injEq] at h; subst h; decide
        · simp at h
      · simp at h

/-- C7 (counterexample): for the path `a.txt`, which triggers no test-file
rule, the content is written with the indentation of its second line. -/
theorem written_text_keeps_second_line_indent :
    CreateOrModifyFile true ".".toList "a.txt".toList "a\n  b".toList = some "a\n  b".toList ∧
    CreateOrModifyFile true ".".toList "a.txt".toList "a\n  b".toList ≠ some "a\nb".toList := by
  decide

/-- C7 (amended): when the directories can be made, `CreateOrModifyFile` hands
a text to the file write, and leading white space is kept, not removed.  For a
path that triggers no test-file rule, and for a test-file path when no line of
the content starts (once trimmed) with the marker of its rule, the written text
has the lines of the content one for one, each with the same leading white
space and the same trimmed text.  For a test-file path with such a line, the
first one becomes marker, space, `dirname`, and every other line keeps its
leading white space and its trimmed text; these are the lines of the written
text whenever `dirname` has no newline. -/
theorem written_text_keeps_indentation (dirname path content : Str) :
    ∃ w, CreateOrModifyFile true dirname path content = some w ∧
      (testFileMarker path = none → LinesKeepIndent w content) ∧
      (∀ pfx, testFileMarker path = some pfx →
        ((∀ l ∈ Split '\n' content, ¬ pfx <+: TrimSpace l) → LinesKeepIndent w content) ∧
        (∀ pre l post, Split '\n' content = pre ++ l :: post →
          (∀ x ∈ pre, ¬ pfx <+: TrimSpace x) → pfx <+: TrimSpace l →
          ∃ pre2 post2, w = Join (pre2 ++ (pfx ++ ' ' :: dirname) :: post2) ['\n'] ∧
            List.Forall₂ KeepsIndent pre2 pre ∧ List.Forall₂ KeepsIndent post2 post ∧
            (∀ x ∈ pre2 ++ post2, '\n' ∉ x) ∧
            ('\n' ∉ dirname →
              Split '\n' w = pre2 ++ (pfx ++ ' ' :: dirname) :: post2))) := by
  cases hm : testFileMarker path with
  | none =>
    exact ⟨content, by simp [CreateOrModifyFile, hm], fun _ => LinesKeepIndent_refl _,
      fun pfx h => by simp at h⟩
  | some m =>
    refine ⟨ensureCorrectPackage content dirname m, by simp [CreateOrModifyFile, hm],
      fun h => by simp at h, ?_⟩
    intro pfx hpfx
    simp only [Option.some.injEq] at hpfx
    subst hpfx
    constructor
    · intro hno
      rw [ensureCorrectPackage, ensureCorrectPackageLines_no_marker _ _ _ hno, Join_Split]
      exact LinesKeepIndent_refl _
    · intro pre l post hs hpre hl
      have hmem : ∀ x ∈ pre ++ post, '\n' ∉ x := by
        intro x hx
        apply not_mem_of_mem_Split '\n' content x
        rw [hs]
        simp only [List.mem_append, List.mem_cons] at hx ⊢
        rcases hx with hx | hx
        · exact Or.inl hx
        · exact Or.inr (Or.inr hx)
      have hw : ensureCorrectPackage content dirname m =
          Join (pre ++ (m ++ ' ' :: dirname) :: post) ['\n'] := by
        rw [ensureCorrectPackage, hs, ensureCorrectPackageLines_first _ _ _ _ _ hpre hl]
      refine ⟨pre, post, hw, Forall₂_KeepsIndent_refl _, Forall₂_KeepsIndent_refl _, hmem, ?_⟩
      intro hd
      rw [hw]
      apply Split_Join _ (by simp)
      intro x hx
      simp only [List.mem_append, List.mem_cons] at hx
      rcases hx with hx | rfl | hx
      · exact hmem x (by simp [hx])
      · simp only [List.mem_append, List.mem_cons, not_or]
        exact ⟨testFileMarker_no_newline path m hm, by decide, hd⟩
      · exact hmem x (by simp [hx])

/-- C7 (amended) at the path `a.txt` with an indented second line, and at the
test file `pkg/a_test.go` whose second line is the package line. -/
theorem written_text_keeps_indentation_witness :
    (∃ w, CreateOrModifyFile true ".".toList "a.txt".toList "a\n  b".toList = some w ∧
      LinesKeepIndent w "a\n  b".toList) ∧
    (∃ w pre2 post2,
      CreateOrModifyFile true "pkg".toList "pkg/a_test.go".toList
        "// c\n  package main\n  x".toList = some w ∧
      Split '\n' w = pre2 ++ "package pkg".toList :: post2 ∧
      List.Forall₂ KeepsIndent pre2 ["// c".toList] ∧
      List.Forall₂ KeepsIndent post2 ["  x".toList]) := by
  constructor
  · obtain ⟨w, h1, h2, _⟩ :=
      written_text_keeps_indentation ".".toList "a.txt".toList "a\n  b".toList
    exact ⟨w, h1, h2 (by decide)⟩
  · obtain ⟨w, h1, _, h3⟩ :=
      written_text_keeps_indentation "pkg".toList "pkg/a_test.go".toList
        "// c\n  package main\n  x".toList
    obtain ⟨pre2, post2, _, h5, h6, _, h8⟩ :=
      (h3 "package".toList (by decide)).2 ["// c".toList] "  package main".toList
        ["  x".toList] (by decide) (by decide) (by decide)
    exact ⟨w, pre2, post2, h1, h8 (by decide), h5, h6⟩

end Debugr
